import Mathlib

/-!
Shallow embedding of `livereload/watcher.py` (class `Watcher`): a registry of
watch tasks (file / directory / glob targets) diffed against the filesystem by
modification time.  Python dicts are modelled as insertion-ordered association
lists, Python floats that only ever get compared (mtimes, delays) as `Int`
resp. `Rat`, and the external collaborators (`os.path.isfile`, `os.path.getmtime`,
`os.walk` listings, `glob.glob`, `fnmatch.fnmatchcase`) as a record of oracles.
-/

namespace LiveReload

/-! ### Python dict as insertion-ordered association list -/

def dictMem (d : List (String × Int)) (k : String) : Bool :=
  d.any (fun kv => kv.1 == k)

def dictLookup : List (String × Int) → String → Option Int
  | [], _ => Option.none
  | kv :: d, k => if kv.1 == k then some kv.2 else dictLookup d k

def dictInsert (d : List (String × Int)) (k : String) (v : Int) : List (String × Int) :=
  if dictMem d k then d.map (fun kv => if kv.1 == k then (k, v) else kv)
  else d ++ [(k, v)]

/-- `d.update(e)` of Python dicts. -/
def dictUpdate (d e : List (String × Int)) : List (String × Int) :=
  e.foldl (fun acc kv => dictInsert acc kv.1 kv.2) d

def dictKeys (d : List (String × Int)) : List String := d.map (fun kv => kv.1)

/-! ### Values crossing the Python dynamic-typing boundary -/

/-- A task's `delay` argument: `None`, an int, a float, or a string such as
`'forever'` (`watch` documents the `'forever'` sentinel). -/
inductive Delay where
  | none
  | int (n : Int)
  | float (x : Rat)
  | str (s : String)
deriving DecidableEq

/-- Python truthiness of a `Delay` value. -/
def Delay.truthy : Delay → Bool
  | Delay.none => false
  | Delay.int n => n != 0
  | Delay.float x => x != 0
  | Delay.str s => s != ""

/-- `isinstance(delay, float)`, together with the float's value. -/
def Delay.floatVal : Delay → Option Rat
  | Delay.float x => some x
  | _ => Option.none

/-- The dynamically typed `changed` local of `Watcher.is_changed`: a bool from
the file/dir branches or a list from the glob branch. -/
inductive Changed where
  | bool (b : Bool)
  | list (l : List String)
deriving DecidableEq

/-- Python truthiness of the `changed` value (a list is truthy iff non-empty). -/
def Changed.truthy : Changed → Bool
  | Changed.bool b => b
  | Changed.list l => !l.isEmpty

/-- `isinstance(changed, list)`, with the list payload. -/
def Changed.list? : Changed → Option (List String)
  | Changed.list l => some l
  | _ => Option.none

/-- A watch target: `is_changed` accepts a plain path or a list/tuple, using
element `[1]` of the latter. -/
inductive Target where
  | str (s : String)
  | pair (a b : String)
deriving DecidableEq

def Target.path : Target → String
  | Target.str s => s
  | Target.pair _ b => b

/-- A task callback; only its declared parameter count is inspected
(`len(signature(func).parameters)`), so that is all we model. -/
structure Func where
  nparams : Nat
deriving DecidableEq

/-- One entry of `self._tasks`. -/
structure Task where
  func : Option Func
  delay : Delay
  ignore : Option (String → Bool)
  mtimes : List (String × Int)

/-! ### Filesystem / library oracles -/

/-- A directory tree entry as enumerated by `os.walk`. -/
inductive Entry where
  | file (name : String)
  | dir (name : String) (sub : List Entry)

/-- External collaborators: `os.path` queries, `os.walk` listings, `glob.glob`
(whose `TypeError` failure is an `Except.error`), and `fnmatch.fnmatchcase`. -/
structure Sys where
  isfile : String → Bool
  isdir : String → Bool
  getmtime : String → Int
  listing : String → List Entry
  glob : String → Except Unit (List String)
  fnmatchcase : String → String → Bool

/-- `os.path.join` for relative second components (posix flavour). -/
def joinPath (a b : String) : String :=
  if b.startsWith "/" then b
  else if a = "" || a.endsWith "/" then a ++ b
  else a ++ "/" ++ b

/-- The extension part of `os.path.splitext`: the suffix from the last dot of
the basename, provided some earlier basename character is not a dot. -/
def rfindChar (cs : List Char) (c : Char) : Option Nat :=
  ((cs.enum.filter (fun p => p.2 == c)).map (fun p => p.1)).getLast?

def splitext_ext (p : String) : String :=
  let cs := p.toList
  match rfindChar cs '.' with
  | Option.none => ""
  | some dot =>
      let base0 := match rfindChar cs '/' with
        | some sep => sep + 1
        | Option.none => 0
      if base0 ≤ dot then
        let mid := (cs.drop base0).take (dot - base0)
        if mid.any (fun ch => ch != '.') then String.mk (cs.drop dot) else ""
      else ""

/-! ### Watcher state -/

/-- The configuration fields of a `Watcher` consulted by the diff routines. -/
structure Config where
  start : Int
  ignored_dirs : List String
  ignored_file_extensions : List String
  ignore_patterns : List String
deriving DecidableEq

/-- The mutable scratch fields threaded through one task's diff:
`self._task_mtimes`, `self._new_mtimes`, `self.filepaths`, `self.filepath`. -/
structure WState where
  task_mtimes : List (String × Int)
  new_mtimes : List (String × Int)
  filepaths : List String
  filepath : Option String
deriving DecidableEq

/-- The whole `Watcher` object. -/
structure Watcher where
  tasks : List (Target × Task)
  changes : List (List String × Option Rat)
  filepaths : List String
  filepath : Option String
  start : Int
  ignored_dirs : List String
  ignored_file_extensions : List String
  ignore_patterns : List String

def Watcher.config (w : Watcher) : Config :=
  { start := w.start
    ignored_dirs := w.ignored_dirs
    ignored_file_extensions := w.ignored_file_extensions
    ignore_patterns := w.ignore_patterns }

/-- `Watcher.__init__` (with `time.time()` passed in as `start`). -/
def Watcher.init (start : Int) : Watcher :=
  { tasks := []
    changes := []
    filepaths := []
    filepath := Option.none
    start := start
    ignored_dirs := [".git", ".hg", ".svn", ".cvs"]
    ignored_file_extensions := [".pyc", ".pyo", ".o", ".swp"]
    ignore_patterns := ["pollen_src/**/compiled/*"] }

def tasksInsert (ts : List (Target × Task)) (k : Target) (v : Task) :
    List (Target × Task) :=
  if ts.any (fun kv => kv.1 == k) then
    ts.map (fun kv => if kv.1 == k then (k, v) else kv)
  else ts ++ [(k, v)]

/-- `Watcher.watch`. -/
def Watcher.watch (w : Watcher) (path : Target) (func : Option Func)
    (delay : Delay) (ignore : Option (String → Bool)) : Watcher :=
  let item : Task := { func := func, delay := delay, ignore := ignore, mtimes := [] }
  { w with tasks := tasksInsert w.tasks path item }

def Watcher.ignore_dirs (w : Watcher) (args : List String) : Watcher :=
  { w with ignored_dirs := w.ignored_dirs ++ args }

def Watcher.ignore_file_extension (w : Watcher) (extension : String) : Watcher :=
  { w with ignored_file_extensions := w.ignored_file_extensions ++ [extension] }

/-! ### Ignore rules -/

/-- Module-level `matches_glob`: rewrite `/**/` to `*/` then `fnmatchcase`. -/
def matches_glob (sys : Sys) (path glob_pattern : String) : Bool :=
  sys.fnmatchcase path (glob_pattern.replace "/**/" "*/")

/-- `Watcher.should_ignore`: extension-blacklist membership. -/
def should_ignore (cfg : Config) (filename : String) : Bool :=
  cfg.ignored_file_extensions.contains (splitext_ext filename)

/-- `Watcher.should_ignore_by_glob`. -/
def should_ignore_by_glob (cfg : Config) (sys : Sys) (path : String) : Bool :=
  cfg.ignore_patterns.any (fun pat => matches_glob sys path pat)

/-- `if ignore and ignore(path)`. -/
def ignoreFires (ign : Option (String → Bool)) (p : String) : Bool :=
  match ign with
  | Option.none => false
  | some f => f p

/-! ### The single-file check -/

/-- `Watcher.is_file_changed`. -/
def is_file_changed (cfg : Config) (sys : Sys) (ign : Option (String → Bool))
    (path : String) (st : WState) : Bool × WState :=
  if !sys.isfile path then (false, st)
  else if should_ignore cfg path then (false, st)
  else if should_ignore_by_glob cfg sys path then (false, st)
  else if ignoreFires ign path then (false, st)
  else
    let mtime := sys.getmtime path
    if !dictMem st.task_mtimes path then
      (decide (cfg.start < mtime),
       { st with new_mtimes := dictInsert st.new_mtimes path mtime,
                 filepaths := st.filepaths ++ [path] })
    else if dictLookup st.task_mtimes path != some mtime then
      (true,
       { st with new_mtimes := dictInsert st.new_mtimes path mtime,
                 filepaths := st.filepaths ++ [path] })
    else
      (false, { st with new_mtimes := dictInsert st.new_mtimes path mtime })

/-! ### Directory traversal (`os.walk` with in-place pruning of ignored dirs) -/

/-- The files yielded at one directory level (joined onto `root`). -/
def filesAt (root : String) : List Entry → List String
  | [] => []
  | Entry.file n :: rest => joinPath root n :: filesAt root rest
  | Entry.dir _ _ :: rest => filesAt root rest

/-- The files yielded below the subdirectories of one level; a subdirectory
whose name is in `ig` is pruned from the walk entirely.  The source removes
one `dirs` occurrence per ignored name (`if d in dirs: dirs.remove(d)`);
`os.walk` lists each directory name at most once, so that equals pruning by
membership. -/
def walkSubs (ig : List String) (root : String) : List Entry → List String
  | [] => []
  | Entry.file _ :: rest => walkSubs ig root rest
  | Entry.dir n sub :: rest =>
      (if n ∈ ig then []
       else filesAt (joinPath root n) sub ++ walkSubs ig (joinPath root n) sub)
      ++ walkSubs ig root rest

/-- All file paths `os.walk(path)` yields after pruning, in visit order
(files of a directory before its subdirectories, as `os.walk` yields). -/
def walkDir (ig : List String) (root : String) (es : List Entry) : List String :=
  filesAt root es ++ walkSubs ig root es

/-- The body of the `for f in files` loop of `Watcher.is_folder_changed`. -/
def folderStep (cfg : Config) (sys : Sys) (ign : Option (String → Bool))
    (acc : Bool × WState) (f : String) : Bool × WState :=
  let r := is_file_changed cfg sys ign f acc.2
  (acc.1 || r.1, r.2)

/-- `Watcher.is_folder_changed`. -/
def is_folder_changed (cfg : Config) (sys : Sys) (ign : Option (String → Bool))
    (path : String) (st : WState) : Bool × WState :=
  (walkDir cfg.ignored_dirs path (sys.listing path)).foldl
    (folderStep cfg sys ign) (false, st)

/-- The body of the changed-files comprehension of `Watcher.get_changed_glob_files`. -/
def globStep (cfg : Config) (sys : Sys) (ign : Option (String → Bool))
    (acc : List String × WState) (f : String) : List String × WState :=
  let r := is_file_changed cfg sys ign f acc.2
  (if r.1 then acc.1 ++ [f] else acc.1, r.2)

/-- `Watcher.get_changed_glob_files`: a `TypeError` from expansion is caught
and treated as zero changed files. -/
def get_changed_glob_files (cfg : Config) (sys : Sys) (ign : Option (String → Bool))
    (path : String) (st : WState) : List String × WState :=
  match sys.glob path with
  | Except.error _ => ([], st)
  | Except.ok files =>
      files.foldl (globStep cfg sys ign) ([], st)

/-! ### Per-task diff -/

/-- The file / directory / glob dispatch inside `Watcher.is_changed`. -/
def scan_target (cfg : Config) (sys : Sys) (ign : Option (String → Bool))
    (path : String) (st : WState) : Changed × WState :=
  if sys.isfile path then
    let r := is_file_changed cfg sys ign path st
    (Changed.bool r.1, r.2)
  else if sys.isdir path then
    let r := is_folder_changed cfg sys ign path st
    (Changed.bool r.1, r.2)
  else
    let r := get_changed_glob_files cfg sys ign path st
    (Changed.list r.1, r.2)

/-- `Watcher.is_file_removed`. -/
def is_file_removed (st : WState) : Bool × WState :=
  let removed := (dictKeys st.task_mtimes).filter (fun k => !dictMem st.new_mtimes k)
  if removed.isEmpty then (false, st)
  else
    (true,
     { st with
        task_mtimes := st.task_mtimes.filter (fun kv => dictMem st.new_mtimes kv.1)
        filepath := removed.getLast? })

/-- `Watcher.is_changed` over one task's mtime table; returns the `changed`
value and the final `WState` (whose `task_mtimes` is the persisted table). -/
def is_changed (cfg : Config) (sys : Sys) (ign : Option (String → Bool))
    (target : Target) (mtimes : List (String × Int)) (fps : List String)
    (fp : Option String) : Changed × WState :=
  let st0 : WState :=
    { task_mtimes := mtimes, new_mtimes := [], filepaths := fps, filepath := fp }
  let r1 := scan_target cfg sys ign target.path st0
  let r2 :=
    if r1.1.truthy then r1
    else
      let rr := is_file_removed r1.2
      (Changed.bool rr.1, rr.2)
  (r2.1, { r2.2 with task_mtimes := dictUpdate r2.2.task_mtimes r2.2.new_mtimes })

/-! ### The poll loop (`Watcher.examine`) -/

/-- `delays` is a Python set; adding an element already present is a no-op. -/
def setAdd (l : List Rat) (x : Rat) : List Rat :=
  if x ∈ l then l else l ++ [x]

/-- `max` over the delay set, `None` when it is empty. -/
def listMaxOf : List Rat → Option Rat
  | [] => Option.none
  | x :: xs => some (xs.foldl max x)

/-- Accumulator of the `for path in self._tasks` loop of `examine`. -/
structure ScanAcc where
  filepaths : List String
  filepath : Option String
  delays : List Rat
  tasks : List (Target × Task)
  events : List (Target × Option (List String))

/-- One iteration of the `examine` loop: diff the task, persist its table,
collect its delay if it is a truthy float, and record a callback invocation
(`some args` iff the callback takes a parameter and `changed` is a list). -/
def scanStep (cfg : Config) (sys : Sys) (acc : ScanAcc) (t : Target × Task) :
    ScanAcc :=
  let r := is_changed cfg sys t.2.ignore t.1 t.2.mtimes acc.filepaths acc.filepath
  let acc1 :=
    { acc with
        filepaths := r.2.filepaths
        filepath := r.2.filepath
        tasks := acc.tasks ++ [(t.1, { t.2 with mtimes := r.2.task_mtimes })] }
  if r.1.truthy then
    let acc2 :=
      if t.2.delay.truthy then
        match t.2.delay.floatVal with
        | some x => { acc1 with delays := setAdd acc1.delays x }
        | Option.none => acc1
      else acc1
    match t.2.func with
    | some f =>
        { acc2 with
            events := acc2.events ++ [(t.1, if 0 < f.nparams then r.1.list? else Option.none)] }
    | Option.none => acc2
  else acc1

/-- `Watcher.examine`: pop a pending change if any, else scan every task.
Besides the returned `(filepaths, delay)` pair we expose the successor
`Watcher` and the list of callback invocations performed. -/
def examine (sys : Sys) (w : Watcher) :
    (List String × Option Rat) × Watcher × List (Target × Option (List String)) :=
  match w.changes.getLast? with
  | some c => (c, { w with changes := w.changes.dropLast }, [])
  | Option.none =>
      let acc := w.tasks.foldl (scanStep w.config sys)
        { filepaths := [], filepath := w.filepath, delays := [], tasks := [], events := [] }
      ((acc.filepaths, listMaxOf acc.delays),
       { w with filepaths := acc.filepaths, filepath := acc.filepath, tasks := acc.tasks },
       acc.events)

/-! ### Spec-side views and derived path sets used by the proofs -/

/-- One task's diff run against a clean changed-path accumulator. -/
def taskDiff (cfg : Config) (sys : Sys) (t : Target × Task) : Changed × WState :=
  is_changed cfg sys t.2.ignore t.1 t.2.mtimes [] Option.none

/-- The delay a task contributes to the delay set in a scan: its configured
delay when the task changed and the delay is a truthy float, nothing
otherwise. -/
def delayContrib (cfg : Config) (sys : Sys) (t : Target × Task) : Option Rat :=
  if (taskDiff cfg sys t).1.truthy && t.2.delay.truthy then t.2.delay.floatVal
  else Option.none

/-- The callback invocation a task produces during a scan, if any. -/
def eventList (cfg : Config) (sys : Sys) (t : Target × Task) :
    List (Target × Option (List String)) :=
  if (taskDiff cfg sys t).1.truthy then
    match t.2.func with
    | some f =>
        [(t.1, if 0 < f.nparams then (taskDiff cfg sys t).1.list? else Option.none)]
    | Option.none => []
  else []

/-- A path passes all ignore rules and is a file: the single-file check will
stage it. -/
def visiblePath (cfg : Config) (sys : Sys) (ign : Option (String → Bool))
    (p : String) : Bool :=
  sys.isfile p && !should_ignore cfg p && !should_ignore_by_glob cfg sys p &&
    !ignoreFires ign p

/-- The paths the scan dispatch hands to the single-file check, in order. -/
def visitList (cfg : Config) (sys : Sys) (p : String) : List String :=
  if sys.isfile p then [p]
  else if sys.isdir p then walkDir cfg.ignored_dirs p (sys.listing p)
  else
    match sys.glob p with
    | Except.ok files => files
    | Except.error _ => []

/-- The paths a scan over target `p` stages into the new-mtimes table. -/
def stagedPaths (cfg : Config) (sys : Sys) (ign : Option (String → Bool))
    (p : String) : List String :=
  (visitList cfg sys p).filter (visiblePath cfg sys ign)

/-- Staging a list of paths with their current mtimes. -/
def stageFold (sys : Sys) (N : List (String × Int)) (ps : List String) :
    List (String × Int) :=
  ps.foldl (fun n q => dictInsert n q (sys.getmtime q)) N

/-! ### Shared concrete fixtures for witnesses and counterexamples -/

def sysNull : Sys :=
  { isfile := fun _ => false
    isdir := fun _ => false
    getmtime := fun _ => 0
    listing := fun _ => []
    glob := fun _ => Except.ok []
    fnmatchcase := fun _ _ => false }
def cfgNull : Config :=
  { start := 0, ignored_dirs := [], ignored_file_extensions := [], ignore_patterns := [] }
def stNull : WState :=
  { task_mtimes := [], new_mtimes := [], filepaths := [], filepath := Option.none }

def sysAB : Sys :=
  { sysNull with
      isfile := fun p => p == "A"
      getmtime := fun _ => 2
      glob := fun p => if p == "g" then Except.ok ["A"] else Except.ok [] }

def sysTwo : Sys :=
  { sysNull with
      isfile := fun q => q == "f" || q == "g"
      getmtime := fun _ => 20 }

def wTwo : Watcher :=
  ((Watcher.init 10).watch (Target.str "f") Option.none (Delay.float 1) Option.none).watch
    (Target.str "g") Option.none (Delay.float (mkRat 5 2)) Option.none

def wInt : Watcher :=
  (Watcher.init 10).watch (Target.str "f") Option.none (Delay.int 2) Option.none

def wC4 : Watcher :=
  { Watcher.init 10 with
      tasks := [(Target.str "g",
        { func := Option.none, delay := Delay.float 1, ignore := Option.none,
          mtimes := [("A", 1), ("B", 1)] })] }
def cfgExt : Config :=
  { start := 0, ignored_dirs := [], ignored_file_extensions := [".pyc"], ignore_patterns := [] }
def wPend : Watcher := { Watcher.init 0 with changes := [(["a"], some 1)] }
def sysGlobErr : Sys := { sysNull with glob := fun _ => Except.error () }
def sysFnm : Sys := { sysNull with fnmatchcase := fun _ _ => true }
def sysF : Sys := { sysNull with isfile := fun q => q == "f", getmtime := fun _ => 20 }
def sysPre : Sys := { sysNull with isfile := fun q => q == "f", getmtime := fun _ => 5 }
def wPre : Watcher :=
  (Watcher.init 10).watch (Target.str "f") (some { nparams := 1 })
    (Delay.float (5 / 2)) Option.none
def sysPre2 : Sys := { sysNull with isfile := fun q => q == "g", getmtime := fun _ => 3 }
def cfgTen : Config := { cfgNull with start := 10 }

/-! ### Basic facts about the ignore rules and the single-file check -/

theorem ifc_ignored (cfg : Config) (sys : Sys) (ign : Option (String → Bool))
    (p : String) (st : WState)
    (h : (should_ignore cfg p || should_ignore_by_glob cfg sys p || ignoreFires ign p) = true) :
    is_file_changed cfg sys ign p st = (false, st) := by
  simp only [Bool.or_eq_true] at h
  unfold is_file_changed
  rcases h with (h | h) | h <;> simp [h]

/-- Pruning equation for the subdirectory part of the walk. -/
theorem walkSubs_prune (ig : List String) (root name : String)
    (sub rest : List Entry) (h : name ∈ ig) :
    walkSubs ig root (Entry.dir name sub :: rest) = walkSubs ig root rest := by
  simp [walkSubs, h]

/-- Pruning equation for the whole walk. -/
theorem walkDir_prune (ig : List String) (root name : String)
    (sub rest : List Entry) (h : name ∈ ig) :
    walkDir ig root (Entry.dir name sub :: rest) = walkDir ig root rest := by
  simp [walkDir, filesAt, walkSubs_prune, h]

/-! ### Association-list dictionary lemmas -/

theorem dictKeys_cons (kv : String × Int) (d : List (String × Int)) :
    dictKeys (kv :: d) = kv.1 :: dictKeys d := rfl

theorem dictMem_iff (d : List (String × Int)) (k : String) :
    dictMem d k = true ↔ k ∈ dictKeys d := by
  simp only [dictMem, dictKeys, List.any_eq_true, List.mem_map, beq_iff_eq]

theorem dictMem_cons (kv : String × Int) (d : List (String × Int)) (k : String) :
    dictMem (kv :: d) k = ((kv.1 == k) || dictMem d k) := by
  simp [dictMem]

theorem dictMem_of_lookup {d : List (String × Int)} {k : String} {m : Int}
    (h : dictLookup d k = some m) : dictMem d k = true := by
  induction d with
  | nil => simp [dictLookup] at h
  | cons kv d2 ih =>
      rw [dictLookup] at h
      rw [dictMem_cons]
      by_cases hk : (kv.1 == k) = true
      · simp [hk]
      · rw [if_neg hk] at h
        simp [ih h]

theorem lookup_mapInsert_self (d : List (String × Int)) (a : String) (v : Int)
    (hm : dictMem d a = true) :
    dictLookup (d.map (fun kv => if kv.1 == a then (a, v) else kv)) a = some v := by
  induction d with
  | nil => simp [dictMem] at hm
  | cons kv d2 ih =>
      rw [List.map_cons, dictLookup]
      by_cases hk : (kv.1 == a) = true
      · rw [if_pos hk]
        simp
      · have hk' : (kv.1 == a) = false := by simpa using hk
        rw [dictMem_cons, hk', Bool.false_or] at hm
        simp only [hk', Bool.false_eq_true, if_false]
        exact ih hm

theorem lookup_mapInsert_ne (d : List (String × Int)) (a : String) (v : Int)
    (k : String) (hk : k ≠ a) :
    dictLookup (d.map (fun kv => if kv.1 == a then (a, v) else kv)) k = dictLookup d k := by
  induction d with
  | nil => rfl
  | cons kv d2 ih =>
      rw [List.map_cons, dictLookup, dictLookup]
      by_cases hka : (kv.1 == a) = true
      · have h1 : (a == k) = false := beq_eq_false_iff_ne.mpr (fun h => hk h.symm)
        have h2 : (kv.1 == k) = false := by
          rw [beq_iff_eq.mp hka]
          exact h1
        rw [if_pos hka]
        simp only [h1, h2, Bool.false_eq_true, if_false]
        exact ih
      · rw [if_neg hka]
        by_cases hkk : (kv.1 == k) = true
        · rw [if_pos hkk, if_pos hkk]
        · rw [if_neg hkk, if_neg hkk]
          exact ih

theorem dictLookup_append (d e : List (String × Int)) (k : String) :
    dictLookup (d ++ e) k = (dictLookup d k).or (dictLookup e k) := by
  induction d with
  | nil => simp [dictLookup]
  | cons kv d2 ih =>
      rw [List.cons_append, dictLookup, dictLookup]
      by_cases hk : (kv.1 == k) = true
      · rw [if_pos hk, if_pos hk]
        rfl
      · rw [if_neg hk, if_neg hk]
        exact ih

theorem lookup_eq_none_of_not_mem {d : List (String × Int)} {k : String}
    (h : dictMem d k = false) : dictLookup d k = Option.none := by
  induction d with
  | nil => rfl
  | cons kv d2 ih =>
      rw [dictMem_cons, Bool.or_eq_false_iff] at h
      rw [dictLookup, if_neg (by simp [h.1])]
      exact ih h.2

theorem dictLookup_insert (d : List (String × Int)) (a : String) (v : Int) (k : String) :
    dictLookup (dictInsert d a v) k = if k = a then some v else dictLookup d k := by
  unfold dictInsert
  by_cases hm : dictMem d a
  · rw [if_pos hm]
    by_cases hk : k = a
    · rw [if_pos hk, hk]
      exact lookup_mapInsert_self d a v hm
    · rw [if_neg hk]
      exact lookup_mapInsert_ne d a v k hk
  · have hm' : dictMem d a = false := by simpa using hm
    rw [if_neg hm, dictLookup_append]
    by_cases hk : k = a
    · subst hk
      rw [lookup_eq_none_of_not_mem hm']
      simp [dictLookup]
    · rw [if_neg hk]
      have hone : dictLookup [(a, v)] k = Option.none := by
        simp [dictLookup, beq_eq_false_iff_ne.mpr (fun h : a = k => hk h.symm)]
      rw [hone, Option.or_none]

theorem dictKeys_insert (d : List (String × Int)) (a : String) (v : Int) :
    dictKeys (dictInsert d a v) =
      if dictMem d a then dictKeys d else dictKeys d ++ [a] := by
  unfold dictInsert
  by_cases hm : dictMem d a
  · rw [if_pos hm, if_pos hm]
    unfold dictKeys
    rw [List.map_map]
    apply List.map_congr_left
    intro kv _
    simp only [Function.comp_apply]
    by_cases hk : (kv.1 == a) = true
    · rw [if_pos hk]
      exact (beq_iff_eq.mp hk).symm
    · rw [if_neg hk]
  · rw [if_neg hm, if_neg hm]
    simp [dictKeys]

theorem dictKeys_insert_sub {d : List (String × Int)} {a : String} {v : Int}
    {k : String} (h : k ∈ dictKeys (dictInsert d a v)) :
    k ∈ dictKeys d ∨ k = a := by
  rw [dictKeys_insert] at h
  by_cases hm : dictMem d a
  · rw [if_pos hm] at h
    exact Or.inl h
  · rw [if_neg hm] at h
    rcases List.mem_append.mp h with h | h
    · exact Or.inl h
    · exact Or.inr (List.mem_singleton.mp h)

theorem dictKeys_insert_nodup {d : List (String × Int)} {a : String} {v : Int}
    (h : (dictKeys d).Nodup) : (dictKeys (dictInsert d a v)).Nodup := by
  rw [dictKeys_insert]
  by_cases hm : dictMem d a
  · rwa [if_pos hm]
  · rw [if_neg hm]
    have hna : a ∉ dictKeys d := fun hc => hm ((dictMem_iff d a).mpr hc)
    rw [← List.concat_eq_append]
    exact List.Nodup.concat hna h

theorem dictLookup_update_of_not_mem {e : List (String × Int)} {k : String}
    (d : List (String × Int)) (h : dictMem e k = false) :
    dictLookup (dictUpdate d e) k = dictLookup d k := by
  induction e generalizing d with
  | nil => rfl
  | cons kv e2 ih =>
      rw [dictMem_cons, Bool.or_eq_false_iff] at h
      unfold dictUpdate
      rw [List.foldl_cons]
      have hrec := ih (dictInsert d kv.1 kv.2) h.2
      unfold dictUpdate at hrec
      rw [hrec, dictLookup_insert,
        if_neg (fun hc : k = kv.1 => by simp [hc] at h)]

theorem dictLookup_update_of_mem {e : List (String × Int)} {k : String}
    (d : List (String × Int)) (hnd : (dictKeys e).Nodup) (h : dictMem e k = true) :
    dictLookup (dictUpdate d e) k = dictLookup e k := by
  induction e generalizing d with
  | nil => simp [dictMem] at h
  | cons kv e2 ih =>
      rw [dictKeys_cons, List.nodup_cons] at hnd
      unfold dictUpdate
      rw [List.foldl_cons, dictLookup]
      by_cases hk : (kv.1 == k) = true
      · have hkk := beq_iff_eq.mp hk
        have h2 : dictMem e2 k = false := by
          cases hmem : dictMem e2 k
          · rfl
          · exact absurd (hkk ▸ (dictMem_iff e2 k).mp hmem) hnd.1
        have hrec := dictLookup_update_of_not_mem (dictInsert d kv.1 kv.2) h2
        unfold dictUpdate at hrec
        rw [hrec, dictLookup_insert, if_pos hkk.symm, if_pos hk]
      · have h2 : dictMem e2 k = true := by
          rw [dictMem_cons, Bool.or_eq_true] at h
          rcases h with h | h
          · exact absurd h hk
          · exact h
        have hrec := ih (dictInsert d kv.1 kv.2) hnd.2 h2
        unfold dictUpdate at hrec
        rw [hrec, if_neg hk]

theorem dictKeys_update_sub {d e : List (String × Int)} {k : String}
    (h : k ∈ dictKeys (dictUpdate d e)) : k ∈ dictKeys d ∨ k ∈ dictKeys e := by
  induction e generalizing d with
  | nil => exact Or.inl h
  | cons kv e2 ih =>
      unfold dictUpdate at h
      rw [List.foldl_cons] at h
      rcases ih h with h1 | h1
      · rcases dictKeys_insert_sub h1 with h2 | h2
        · exact Or.inl h2
        · refine Or.inr ?_
          rw [h2, dictKeys_cons]
          exact List.mem_cons_self kv.1 (dictKeys e2)
      · refine Or.inr ?_
        rw [dictKeys_cons]
        exact List.mem_cons_of_mem kv.1 h1

/-! ### C5 -/

/-- C5: for every path on which any ignore rule holds — extension-blacklist
membership, an ignore-glob match, or the task's custom predicate — the
single-file check reports not-changed and leaves the state untouched: the path
is never staged into the mtime table and never appended to the changed-path
output, regardless of its mtime. -/
theorem ignored_path_invisible (cfg : Config) (sys : Sys)
    (ign : Option (String → Bool)) (p : String) (st : WState)
    (h : (should_ignore cfg p || should_ignore_by_glob cfg sys p || ignoreFires ign p) = true) :
    is_file_changed cfg sys ign p st = (false, st) :=
  ifc_ignored cfg sys ign p st h

theorem ignored_path_invisible_witness :
    (should_ignore cfgExt "x.pyc" || should_ignore_by_glob cfgExt sysNull "x.pyc" ||
      ignoreFires Option.none "x.pyc") = true ∧
    is_file_changed cfgExt sysNull Option.none "x.pyc" stNull = (false, stNull) :=
  ⟨by decide, ignored_path_invisible cfgExt sysNull Option.none "x.pyc" stNull (by decide)⟩

/-! ### C6 -/

/-- C6: whenever the pending-change queue is non-empty, `examine` pops and
returns the most recently queued pair (LIFO), removes it from the queue, and
bypasses the scan entirely: the tasks (and their mtime tables) are untouched,
no callback event is produced, and the result does not depend on the
filesystem (`sys` is arbitrary). -/
theorem examine_pending_change_lifo (sys : Sys) (w : Watcher)
    (cs : List (List String × Option Rat)) (c : List String × Option Rat)
    (h : w.changes = cs ++ [c]) :
    examine sys w = (c, { w with changes := cs }, []) := by
  unfold examine
  rw [h]
  simp

theorem examine_pending_change_lifo_witness :
    examine sysNull wPend = ((["a"], some 1), { wPend with changes := [] }, []) :=
  examine_pending_change_lifo sysNull wPend [] (["a"], some 1) rfl

/-! ### C7 -/

/-- C7: when glob expansion fails (`glob.glob` raises `TypeError`, modelled as
`Except.error`), the glob diff yields zero changed files with the state intact
— the same result as an expansion returning no files — and the error never
escapes (the function returns normally). -/
theorem glob_failure_zero_changes (cfg : Config) (sys sys2 : Sys)
    (ign : Option (String → Bool)) (p : String) (st : WState)
    (h : sys.glob p = Except.error ()) (h2 : sys2.glob p = Except.ok []) :
    get_changed_glob_files cfg sys ign p st = ([], st) ∧
    get_changed_glob_files cfg sys ign p st = get_changed_glob_files cfg sys2 ign p st := by
  unfold get_changed_glob_files
  rw [h, h2]
  exact ⟨rfl, rfl⟩

theorem glob_failure_zero_changes_witness :
    sysGlobErr.glob "p" = Except.error () ∧
    get_changed_glob_files cfgNull sysGlobErr Option.none "p" stNull = ([], stNull) :=
  ⟨rfl, (glob_failure_zero_changes cfgNull sysGlobErr sysNull Option.none "p" stNull rfl rfl).1⟩

/-! ### C8 -/

/-- C8: directory traversal prunes every directory whose name is in the
ignored-dirs list (which by default contains `.git`) from the walk entirely:
the walk yields nothing from under such a directory, and the directory diff
runs over the walk of the remaining entries only, so a file anywhere under an
ignored directory is never visited and never triggers a change. -/
theorem ignored_dir_pruned_from_walk :
    (∀ s : Int, ".git" ∈ (Watcher.init s).ignored_dirs) ∧
    (∀ (ig : List String) (root name : String) (sub rest : List Entry),
       name ∈ ig →
       walkDir ig root (Entry.dir name sub :: rest) = walkDir ig root rest) ∧
    (∀ (ig : List String) (root name : String) (sub rest : List Entry),
       name ∈ ig →
       walkSubs ig root (Entry.dir name sub :: rest) = walkSubs ig root rest) ∧
    (∀ (cfg : Config) (sys : Sys) (ign : Option (String → Bool))
       (p name : String) (sub rest : List Entry) (st : WState),
       name ∈ cfg.ignored_dirs → sys.listing p = Entry.dir name sub :: rest →
       is_folder_changed cfg sys ign p st =
         (walkDir cfg.ignored_dirs p rest).foldl
           (folderStep cfg sys ign) (false, st)) := by
  refine ⟨fun s => by simp [Watcher.init], walkDir_prune, walkSubs_prune, ?_⟩
  intro cfg sys ign p name sub rest st hmem hlist
  unfold is_folder_changed
  rw [hlist, walkDir_prune cfg.ignored_dirs p name sub rest hmem]

theorem ignored_dir_pruned_from_walk_witness :
    walkDir [".git"] "w" [Entry.dir ".git" [Entry.file "x"]] = walkDir [".git"] "w" [] :=
  ignored_dir_pruned_from_walk.2.1 [".git"] "w" ".git" [Entry.file "x"] [] (by decide)

/-! ### C10 -/

/-- C10: a freshly constructed watcher already carries the default ignore
configuration — ignore-glob pattern `pollen_src/**/compiled/*` and extension
blacklist `.pyc`, `.pyo`, `.o`, `.swp` — and every path matching one of these
defaults is invisible to the single-file check (never staged, never reported
changed) with no registration-time opt-in. -/
theorem default_ignore_configuration :
    (∀ s : Int, (Watcher.init s).ignore_patterns = ["pollen_src/**/compiled/*"] ∧
       (Watcher.init s).ignored_file_extensions = [".pyc", ".pyo", ".o", ".swp"]) ∧
    (∀ (s : Int) (sys : Sys) (ign : Option (String → Bool)) (p : String) (st : WState),
       sys.fnmatchcase p ("pollen_src/**/compiled/*".replace "/**/" "*/") = true →
       is_file_changed ((Watcher.init s).config) sys ign p st = (false, st)) ∧
    (∀ (s : Int) (sys : Sys) (ign : Option (String → Bool)) (p : String) (st : WState),
       splitext_ext p ∈ [".pyc", ".pyo", ".o", ".swp"] →
       is_file_changed ((Watcher.init s).config) sys ign p st = (false, st)) := by
  refine ⟨fun s => ⟨rfl, rfl⟩, ?_, ?_⟩
  · intro s sys ign p st h
    apply ifc_ignored
    have hg : should_ignore_by_glob ((Watcher.init s).config) sys p = true := by
      simp [should_ignore_by_glob, Watcher.init, Watcher.config, matches_glob, h]
    simp [hg]
  · intro s sys ign p st h
    apply ifc_ignored
    have he : should_ignore ((Watcher.init s).config) p = true := by
      simp only [should_ignore, Watcher.init, Watcher.config]
      exact List.elem_eq_true_of_mem h
    simp [he]

theorem default_ignore_configuration_witness :
    sysFnm.fnmatchcase "pollen_src/a/compiled/x" ("pollen_src/**/compiled/*".replace "/**/" "*/") = true ∧
    is_file_changed ((Watcher.init 0).config) sysFnm Option.none "pollen_src/a/compiled/x" stNull =
      (false, stNull) ∧
    is_file_changed ((Watcher.init 0).config) sysNull Option.none "b.pyc" stNull = (false, stNull) :=
  ⟨rfl,
   default_ignore_configuration.2.1 0 sysFnm Option.none "pollen_src/a/compiled/x" stNull rfl,
   default_ignore_configuration.2.2 0 sysNull Option.none "b.pyc" stNull (by decide)⟩

/-! ### C3 -/

/-- C3: classification of the single-file check on a non-ignored path:
first sight with mtime strictly above the construction-time start is a change,
first sight at or below start is baseline only, a seen path with a different
mtime is a change, a seen path with the same mtime is not; in every case the
current mtime is staged; and `examine` never alters `start`. -/
theorem single_file_check_classification (cfg : Config) (sys : Sys)
    (ign : Option (String → Bool)) (p : String) (st : WState)
    (hf : sys.isfile p = true) (h1 : should_ignore cfg p = false)
    (h2 : should_ignore_by_glob cfg sys p = false)
    (h3 : ignoreFires ign p = false) :
    (dictMem st.task_mtimes p = false → cfg.start < sys.getmtime p →
      is_file_changed cfg sys ign p st =
        (true, { st with new_mtimes := dictInsert st.new_mtimes p (sys.getmtime p),
                         filepaths := st.filepaths ++ [p] })) ∧
    (dictMem st.task_mtimes p = false → sys.getmtime p ≤ cfg.start →
      is_file_changed cfg sys ign p st =
        (false, { st with new_mtimes := dictInsert st.new_mtimes p (sys.getmtime p),
                          filepaths := st.filepaths ++ [p] })) ∧
    (∀ m : Int, dictLookup st.task_mtimes p = some m → m ≠ sys.getmtime p →
      is_file_changed cfg sys ign p st =
        (true, { st with new_mtimes := dictInsert st.new_mtimes p (sys.getmtime p),
                         filepaths := st.filepaths ++ [p] })) ∧
    (dictLookup st.task_mtimes p = some (sys.getmtime p) →
      is_file_changed cfg sys ign p st =
        (false, { st with new_mtimes := dictInsert st.new_mtimes p (sys.getmtime p) })) ∧
    (∀ (sys2 : Sys) (w : Watcher), ((examine sys2 w).2.1).start = w.start) := by
  refine ⟨?_, ?_, ?_, ?_, ?_⟩
  · intro hm hlt
    unfold is_file_changed
    simp [hf, h1, h2, h3, hm, hlt]
  · intro hm hle
    unfold is_file_changed
    simp [hf, h1, h2, h3, hm, not_lt.mpr hle]
  · intro m hlook hne
    have hm := dictMem_of_lookup hlook
    unfold is_file_changed
    simp [hf, h1, h2, h3, hm, hlook, hne]
  · intro hlook
    have hm := dictMem_of_lookup hlook
    unfold is_file_changed
    simp [hf, h1, h2, h3, hm, hlook]
  · intro sys2 w
    unfold examine
    cases hW : w.changes.getLast? <;> simp

theorem single_file_check_classification_witness :
    is_file_changed cfgNull sysF Option.none "f" stNull =
      (true, { stNull with new_mtimes := dictInsert stNull.new_mtimes "f" (sysF.getmtime "f"),
                           filepaths := stNull.filepaths ++ ["f"] }) :=
  (single_file_check_classification cfgNull sysF Option.none "f" stNull (by decide)
    (by decide) (by decide) rfl).1 (by decide) (by decide)

/-! ### C9 -/

/-- C9: a non-ignored file seen for the first time with mtime at or before the
engine's start is classified not-changed but still appended to the changed-path
output; concretely, a first poll over a pre-existing file returns a non-empty
changed-path list with `None` delay and fires no callback. -/
theorem baseline_first_sight_reported :
    (∀ (cfg : Config) (sys : Sys) (ign : Option (String → Bool)) (p : String) (st : WState),
       sys.isfile p = true → should_ignore cfg p = false →
       should_ignore_by_glob cfg sys p = false → ignoreFires ign p = false →
       dictMem st.task_mtimes p = false → sys.getmtime p ≤ cfg.start →
       is_file_changed cfg sys ign p st =
         (false, { st with new_mtimes := dictInsert st.new_mtimes p (sys.getmtime p),
                           filepaths := st.filepaths ++ [p] })) ∧
    ((examine sysPre wPre).1 = (["f"], Option.none) ∧ (examine sysPre wPre).2.2 = []) := by
  constructor
  · intro cfg sys ign p st hf h1 h2 h3 hm hle
    unfold is_file_changed
    simp [hf, h1, h2, h3, hm, not_lt.mpr hle]
  · exact ⟨by decide, by decide⟩

theorem baseline_first_sight_reported_witness :
    is_file_changed cfgTen sysPre2 Option.none "g" stNull =
      (false, { stNull with new_mtimes := dictInsert stNull.new_mtimes "g" (sysPre2.getmtime "g"),
                            filepaths := stNull.filepaths ++ ["g"] }) :=
  baseline_first_sight_reported.1 cfgTen sysPre2 Option.none "g" stNull (by decide)
    (by decide) (by decide) rfl (by decide) (by decide)

/-! ### Frame lemmas: the diff results do not depend on the incoming
changed-path accumulator -/

theorem ifc_shift (cfg : Config) (sys : Sys) (ign : Option (String → Bool))
    (p : String) (T N : List (String × Int)) (fps : List String) (fp : Option String) :
    is_file_changed cfg sys ign p ⟨T, N, fps, fp⟩ =
      ((is_file_changed cfg sys ign p ⟨T, N, [], Option.none⟩).1,
       ⟨T, (is_file_changed cfg sys ign p ⟨T, N, [], Option.none⟩).2.new_mtimes,
        fps ++ (is_file_changed cfg sys ign p ⟨T, N, [], Option.none⟩).2.filepaths, fp⟩) := by
  simp only [is_file_changed]
  split_ifs <;> simp

theorem folder_fold_shift (cfg : Config) (sys : Sys) (ign : Option (String → Bool))
    (l : List String) (b : Bool) (T N : List (String × Int)) (fps : List String)
    (fp : Option String) :
    l.foldl (folderStep cfg sys ign) (b, ⟨T, N, fps, fp⟩) =
      (b || (l.foldl (folderStep cfg sys ign) (false, ⟨T, N, [], Option.none⟩)).1,
       ⟨T, (l.foldl (folderStep cfg sys ign) (false, ⟨T, N, [], Option.none⟩)).2.new_mtimes,
        fps ++ (l.foldl (folderStep cfg sys ign) (false, ⟨T, N, [], Option.none⟩)).2.filepaths,
        fp⟩) := by
  induction l generalizing b T N fps fp with
  | nil => simp
  | cons f l ih =>
      rcases hifc : is_file_changed cfg sys ign f ⟨T, N, [], Option.none⟩ with ⟨c, t2, n2, f2, p2⟩
      have h0 := ifc_shift cfg sys ign f T N [] Option.none
      rw [hifc] at h0
      simp at h0
      rw [h0.1, h0.2] at hifc
      have hB := ifc_shift cfg sys ign f T N fps fp
      rw [hifc] at hB
      simp at hB
      simp only [List.foldl_cons, folderStep, hB, hifc]
      have hL := ih (b || c) T n2 (fps ++ f2) fp
      have hR := ih c T n2 f2 Option.none
      simp [hL, hR, Bool.or_assoc, List.append_assoc]

theorem glob_fold_shift (cfg : Config) (sys : Sys) (ign : Option (String → Bool))
    (l : List String) (a : List String) (T N : List (String × Int)) (fps : List String)
    (fp : Option String) :
    l.foldl (globStep cfg sys ign) (a, ⟨T, N, fps, fp⟩) =
      (a ++ (l.foldl (globStep cfg sys ign) ([], ⟨T, N, [], Option.none⟩)).1,
       ⟨T, (l.foldl (globStep cfg sys ign) ([], ⟨T, N, [], Option.none⟩)).2.new_mtimes,
        fps ++ (l.foldl (globStep cfg sys ign) ([], ⟨T, N, [], Option.none⟩)).2.filepaths,
        fp⟩) := by
  induction l generalizing a T N fps fp with
  | nil => simp
  | cons f l ih =>
      rcases hifc : is_file_changed cfg sys ign f ⟨T, N, [], Option.none⟩ with ⟨c, t2, n2, f2, p2⟩
      have h0 := ifc_shift cfg sys ign f T N [] Option.none
      rw [hifc] at h0
      simp at h0
      rw [h0.1, h0.2] at hifc
      have hB := ifc_shift cfg sys ign f T N fps fp
      rw [hifc] at hB
      simp at hB
      simp only [List.foldl_cons, globStep, hB, hifc]
      cases c
      · have hL := ih a T n2 (fps ++ f2) fp
        have hR := ih [] T n2 f2 Option.none
        simp [hL, hR, List.append_assoc]
      · have hL := ih (a ++ [f]) T n2 (fps ++ f2) fp
        have hR := ih [f] T n2 f2 Option.none
        simp [hL, hR, List.append_assoc]

/-- `is_file_removed` written as one equation. -/
theorem is_file_removed_eq (st : WState) :
    is_file_removed st =
      (if ((dictKeys st.task_mtimes).filter (fun k => !dictMem st.new_mtimes k)).isEmpty
       then (false, st)
       else (true,
             { st with
                task_mtimes := st.task_mtimes.filter (fun kv => dictMem st.new_mtimes kv.1),
                filepath := ((dictKeys st.task_mtimes).filter
                  (fun k => !dictMem st.new_mtimes k)).getLast? })) := rfl

theorem scan_shift (cfg : Config) (sys : Sys) (ign : Option (String → Bool))
    (p : String) (T N : List (String × Int)) (fps : List String) (fp : Option String) :
    scan_target cfg sys ign p ⟨T, N, fps, fp⟩ =
      ((scan_target cfg sys ign p ⟨T, N, [], Option.none⟩).1,
       ⟨T, (scan_target cfg sys ign p ⟨T, N, [], Option.none⟩).2.new_mtimes,
        fps ++ (scan_target cfg sys ign p ⟨T, N, [], Option.none⟩).2.filepaths, fp⟩) := by
  simp only [scan_target]
  split_ifs with h1 h2
  · rw [ifc_shift cfg sys ign p T N fps fp]
  · simp only [is_folder_changed]
    rw [folder_fold_shift cfg sys ign (walkDir cfg.ignored_dirs p (sys.listing p)) false T N fps fp]
    simp
  · simp only [get_changed_glob_files]
    cases hg : sys.glob p with
    | error e => simp
    | ok files =>
        have hrw := glob_fold_shift cfg sys ign files [] T N fps fp
        simp only [hrw]
        simp

theorem is_changed_shift (cfg : Config) (sys : Sys) (ign : Option (String → Bool))
    (t : Target) (m : List (String × Int)) (fps : List String) (fp : Option String) :
    (is_changed cfg sys ign t m fps fp).1 = (is_changed cfg sys ign t m [] Option.none).1 ∧
    (is_changed cfg sys ign t m fps fp).2.task_mtimes =
      (is_changed cfg sys ign t m [] Option.none).2.task_mtimes ∧
    (is_changed cfg sys ign t m fps fp).2.filepaths =
      fps ++ (is_changed cfg sys ign t m [] Option.none).2.filepaths ∧
    (is_changed cfg sys ign t m fps fp).2.new_mtimes =
      (is_changed cfg sys ign t m [] Option.none).2.new_mtimes := by
  rcases hs : scan_target cfg sys ign t.path ⟨m, [], [], Option.none⟩ with ⟨c, t2, n2, f2, p2⟩
  have h0 := scan_shift cfg sys ign t.path m [] [] Option.none
  rw [hs] at h0
  simp at h0
  rw [h0.1, h0.2] at hs
  have hB := scan_shift cfg sys ign t.path m [] fps fp
  rw [hs] at hB
  simp at hB
  simp only [is_changed, hB, hs]
  cases hc : c.truthy
  · simp only [hc, Bool.false_eq_true, if_false, is_file_removed_eq]
    split_ifs with hrem <;> simp
  · simp [hc]

/-! ### Per-task view of the examine scan loop -/

theorem scanStep_filepaths (cfg : Config) (sys : Sys) (acc : ScanAcc) (t : Target × Task) :
    (scanStep cfg sys acc t).filepaths =
      acc.filepaths ++ (taskDiff cfg sys t).2.filepaths := by
  have hsh := (is_changed_shift cfg sys t.2.ignore t.1 t.2.mtimes acc.filepaths acc.filepath).2.2.1
  simp only [scanStep, taskDiff]
  cases htr : (is_changed cfg sys t.2.ignore t.1 t.2.mtimes acc.filepaths acc.filepath).1.truthy <;>
    cases htd : t.2.delay.truthy <;>
      cases hfv : t.2.delay.floatVal <;>
        cases hfn : t.2.func <;>
          simp [htr, htd, hfv, hfn, hsh]

theorem scanStep_tasks (cfg : Config) (sys : Sys) (acc : ScanAcc) (t : Target × Task) :
    (scanStep cfg sys acc t).tasks =
      acc.tasks ++ [(t.1, { t.2 with mtimes := (taskDiff cfg sys t).2.task_mtimes })] := by
  have hsh := (is_changed_shift cfg sys t.2.ignore t.1 t.2.mtimes acc.filepaths acc.filepath).2.1
  simp only [scanStep, taskDiff]
  cases htr : (is_changed cfg sys t.2.ignore t.1 t.2.mtimes acc.filepaths acc.filepath).1.truthy <;>
    cases htd : t.2.delay.truthy <;>
      cases hfv : t.2.delay.floatVal <;>
        cases hfn : t.2.func <;>
          simp [htr, htd, hfv, hfn, hsh]

theorem scanStep_delays (cfg : Config) (sys : Sys) (acc : ScanAcc) (t : Target × Task) :
    (scanStep cfg sys acc t).delays =
      (match delayContrib cfg sys t with
       | some x => setAdd acc.delays x
       | Option.none => acc.delays) := by
  have hsh := (is_changed_shift cfg sys t.2.ignore t.1 t.2.mtimes acc.filepaths acc.filepath).1
  simp only [scanStep, delayContrib, taskDiff]
  cases htr : (is_changed cfg sys t.2.ignore t.1 t.2.mtimes acc.filepaths acc.filepath).1.truthy <;>
    cases htd : t.2.delay.truthy <;>
      cases hfv : t.2.delay.floatVal <;>
        cases hfn : t.2.func <;>
          simp [← hsh, htr, htd, hfv, hfn]

theorem scanStep_events (cfg : Config) (sys : Sys) (acc : ScanAcc) (t : Target × Task) :
    (scanStep cfg sys acc t).events = acc.events ++ eventList cfg sys t := by
  have hsh := (is_changed_shift cfg sys t.2.ignore t.1 t.2.mtimes acc.filepaths acc.filepath).1
  simp only [scanStep, eventList, taskDiff]
  cases htr : (is_changed cfg sys t.2.ignore t.1 t.2.mtimes acc.filepaths acc.filepath).1.truthy <;>
    cases htd : t.2.delay.truthy <;>
      cases hfv : t.2.delay.floatVal <;>
        cases hfn : t.2.func <;>
          simp [← hsh, htr, htd, hfv, hfn]

theorem scanFold_filepaths (cfg : Config) (sys : Sys) (ts : List (Target × Task))
    (acc : ScanAcc) :
    (ts.foldl (scanStep cfg sys) acc).filepaths =
      acc.filepaths ++ ts.flatMap (fun t => (taskDiff cfg sys t).2.filepaths) := by
  induction ts generalizing acc with
  | nil => simp
  | cons t ts ih =>
      rw [List.foldl_cons, ih, scanStep_filepaths]
      simp [List.append_assoc]

theorem scanFold_tasks (cfg : Config) (sys : Sys) (ts : List (Target × Task))
    (acc : ScanAcc) :
    (ts.foldl (scanStep cfg sys) acc).tasks =
      acc.tasks ++ ts.map (fun t => (t.1, { t.2 with mtimes := (taskDiff cfg sys t).2.task_mtimes })) := by
  induction ts generalizing acc with
  | nil => simp
  | cons t ts ih =>
      rw [List.foldl_cons, ih, scanStep_tasks]
      simp [List.append_assoc]

theorem scanFold_delays (cfg : Config) (sys : Sys) (ts : List (Target × Task))
    (acc : ScanAcc) :
    (ts.foldl (scanStep cfg sys) acc).delays =
      ts.foldl (fun ds t =>
        match delayContrib cfg sys t with
        | some x => setAdd ds x
        | Option.none => ds) acc.delays := by
  induction ts generalizing acc with
  | nil => rfl
  | cons t ts ih =>
      rw [List.foldl_cons, ih, List.foldl_cons, scanStep_delays]

theorem scanFold_events (cfg : Config) (sys : Sys) (ts : List (Target × Task))
    (acc : ScanAcc) :
    (ts.foldl (scanStep cfg sys) acc).events =
      acc.events ++ ts.flatMap (eventList cfg sys) := by
  induction ts generalizing acc with
  | nil => simp
  | cons t ts ih =>
      rw [List.foldl_cons, ih, scanStep_events]
      simp [List.append_assoc]

/-- The scan branch of `examine`, by components. -/
theorem examine_parts (sys : Sys) (w : Watcher) (h : w.changes = []) :
    (examine sys w).1.1 =
      w.tasks.flatMap (fun t => (taskDiff w.config sys t).2.filepaths) ∧
    (examine sys w).1.2 =
      listMaxOf (w.tasks.foldl (fun ds t =>
        match delayContrib w.config sys t with
        | some x => setAdd ds x
        | Option.none => ds) []) ∧
    (examine sys w).2.1.tasks =
      w.tasks.map (fun t => (t.1, { t.2 with mtimes := (taskDiff w.config sys t).2.task_mtimes })) ∧
    (examine sys w).2.2 = w.tasks.flatMap (eventList w.config sys) ∧
    (examine sys w).2.1.changes = [] ∧
    (examine sys w).2.1.config = w.config ∧
    (examine sys w).2.1.start = w.start := by
  simp only [examine, h, List.getLast?]
  refine ⟨?_, ?_, ?_, ?_, ?_, ?_, ?_⟩
  · rw [scanFold_filepaths]
    simp
  · rw [scanFold_delays]
  · rw [scanFold_tasks]
    simp
  · rw [scanFold_events]
    simp
  · trivial
  · trivial
  · trivial

/-! ### What a scan stages: visibility and the staged-path list -/

theorem ifc_new_mtimes (cfg : Config) (sys : Sys) (ign : Option (String → Bool))
    (q : String) (st : WState) :
    (is_file_changed cfg sys ign q st).2.new_mtimes =
      (if visiblePath cfg sys ign q then dictInsert st.new_mtimes q (sys.getmtime q)
       else st.new_mtimes) := by
  simp only [is_file_changed, visiblePath]
  by_cases h1 : sys.isfile q <;> by_cases h2 : should_ignore cfg q <;>
    by_cases h3 : should_ignore_by_glob cfg sys q <;> by_cases h4 : ignoreFires ign q <;>
      simp [h1, h2, h3, h4] <;> split_ifs <;> simp

theorem ifc_invisible (cfg : Config) (sys : Sys) (ign : Option (String → Bool))
    (q : String) (st : WState) (hv : visiblePath cfg sys ign q = false) :
    is_file_changed cfg sys ign q st = (false, st) := by
  by_cases h1 : sys.isfile q <;> by_cases h2 : should_ignore cfg q <;>
    by_cases h3 : should_ignore_by_glob cfg sys q <;> by_cases h4 : ignoreFires ign q
  all_goals
    first
    | (simp only [is_file_changed]
       simp [h1, h2, h3, h4]
       done)
    | (exfalso
       simp [visiblePath, h1, h2, h3, h4] at hv)

theorem ifc_synced (cfg : Config) (sys : Sys) (ign : Option (String → Bool))
    (q : String) (st : WState) (hv : visiblePath cfg sys ign q = true)
    (hl : dictLookup st.task_mtimes q = some (sys.getmtime q)) :
    is_file_changed cfg sys ign q st =
      (false, { st with new_mtimes := dictInsert st.new_mtimes q (sys.getmtime q) }) := by
  simp only [visiblePath, Bool.and_eq_true] at hv
  obtain ⟨⟨⟨h1, h2⟩, h3⟩, h4⟩ := hv
  have h2' : should_ignore cfg q = false := by simpa using h2
  have h3' : should_ignore_by_glob cfg sys q = false := by simpa using h3
  have h4' : ignoreFires ign q = false := by simpa using h4
  have hm := dictMem_of_lookup hl
  simp only [is_file_changed]
  simp [h1, h2', h3', h4', hm, hl]

theorem folder_fold_staged (cfg : Config) (sys : Sys) (ign : Option (String → Bool))
    (l : List String) (b : Bool) (T N : List (String × Int)) (fps : List String)
    (fp : Option String) :
    ((l.foldl (folderStep cfg sys ign) (b, ⟨T, N, fps, fp⟩)).2).new_mtimes =
      stageFold sys N (l.filter (visiblePath cfg sys ign)) := by
  induction l generalizing b T N fps fp with
  | nil => rfl
  | cons f l ih =>
      rw [List.foldl_cons]
      rcases hst : is_file_changed cfg sys ign f ⟨T, N, fps, fp⟩ with ⟨c, T2, N2, F2, P2⟩
      have hN2 : N2 = (if visiblePath cfg sys ign f then dictInsert N f (sys.getmtime f)
          else N) := by
        have hx := ifc_new_mtimes cfg sys ign f ⟨T, N, fps, fp⟩
        rw [hst] at hx
        simpa using hx
      simp only [folderStep, hst]
      rw [ih (b || c) T2 N2 F2 P2, hN2]
      by_cases hv : visiblePath cfg sys ign f <;>
        simp [hv, stageFold, List.filter_cons]

theorem glob_fold_staged (cfg : Config) (sys : Sys) (ign : Option (String → Bool))
    (l : List String) (a : List String) (T N : List (String × Int)) (fps : List String)
    (fp : Option String) :
    ((l.foldl (globStep cfg sys ign) (a, ⟨T, N, fps, fp⟩)).2).new_mtimes =
      stageFold sys N (l.filter (visiblePath cfg sys ign)) := by
  induction l generalizing a T N fps fp with
  | nil => rfl
  | cons f l ih =>
      rw [List.foldl_cons]
      rcases hst : is_file_changed cfg sys ign f ⟨T, N, fps, fp⟩ with ⟨c, T2, N2, F2, P2⟩
      have hN2 : N2 = (if visiblePath cfg sys ign f then dictInsert N f (sys.getmtime f)
          else N) := by
        have hx := ifc_new_mtimes cfg sys ign f ⟨T, N, fps, fp⟩
        rw [hst] at hx
        simpa using hx
      simp only [globStep, hst]
      rw [ih (if c then a ++ [f] else a) T2 N2 F2 P2, hN2]
      by_cases hv : visiblePath cfg sys ign f <;>
        simp [hv, stageFold, List.filter_cons]

theorem scan_staged (cfg : Config) (sys : Sys) (ign : Option (String → Bool))
    (p : String) (T N : List (String × Int)) (fps : List String) (fp : Option String) :
    (scan_target cfg sys ign p ⟨T, N, fps, fp⟩).2.new_mtimes =
      stageFold sys N (stagedPaths cfg sys ign p) := by
  simp only [scan_target, stagedPaths, visitList]
  split_ifs with h1 h2
  · rcases hst : is_file_changed cfg sys ign p ⟨T, N, fps, fp⟩ with ⟨c, T2, N2, F2, P2⟩
    have hx := ifc_new_mtimes cfg sys ign p ⟨T, N, fps, fp⟩
    rw [hst] at hx
    by_cases hv : visiblePath cfg sys ign p <;>
      simp_all [stageFold, List.filter_cons]
  · simp only [is_folder_changed]
    rw [folder_fold_staged]
  · simp only [get_changed_glob_files]
    cases hg : sys.glob p with
    | error e => rfl
    | ok files => rw [glob_fold_staged]

theorem folder_fold_synced (cfg : Config) (sys : Sys) (ign : Option (String → Bool))
    (l : List String) (b : Bool) (T N : List (String × Int)) (fps : List String)
    (fp : Option String)
    (hsync : ∀ q ∈ l, visiblePath cfg sys ign q = true →
      dictLookup T q = some (sys.getmtime q)) :
    l.foldl (folderStep cfg sys ign) (b, ⟨T, N, fps, fp⟩) =
      (b, ⟨T, stageFold sys N (l.filter (visiblePath cfg sys ign)), fps, fp⟩) := by
  induction l generalizing b N with
  | nil => simp [stageFold]
  | cons f l ih =>
      rw [List.foldl_cons]
      by_cases hv : visiblePath cfg sys ign f
      · have hstep := ifc_synced cfg sys ign f ⟨T, N, fps, fp⟩ hv
          (hsync f (List.mem_cons_self f l) hv)
        simp at hstep
        simp only [folderStep, hstep, Bool.or_false]
        rw [ih b (dictInsert N f (sys.getmtime f))
          (fun q hq hvq => hsync q (List.mem_cons_of_mem f hq) hvq)]
        simp [List.filter_cons, hv, stageFold]
      · have hstep := ifc_invisible cfg sys ign f ⟨T, N, fps, fp⟩ (by simpa using hv)
        simp at hstep
        simp only [folderStep, hstep, Bool.or_false]
        rw [ih b N (fun q hq hvq => hsync q (List.mem_cons_of_mem f hq) hvq)]
        simp [List.filter_cons, hv]

theorem glob_fold_synced (cfg : Config) (sys : Sys) (ign : Option (String → Bool))
    (l : List String) (a : List String) (T N : List (String × Int)) (fps : List String)
    (fp : Option String)
    (hsync : ∀ q ∈ l, visiblePath cfg sys ign q = true →
      dictLookup T q = some (sys.getmtime q)) :
    l.foldl (globStep cfg sys ign) (a, ⟨T, N, fps, fp⟩) =
      (a, ⟨T, stageFold sys N (l.filter (visiblePath cfg sys ign)), fps, fp⟩) := by
  induction l generalizing a N with
  | nil => simp [stageFold]
  | cons f l ih =>
      rw [List.foldl_cons]
      by_cases hv : visiblePath cfg sys ign f
      · have hstep := ifc_synced cfg sys ign f ⟨T, N, fps, fp⟩ hv
          (hsync f (List.mem_cons_self f l) hv)
        simp at hstep
        simp only [globStep, hstep]
        rw [if_neg (by simp : ¬(false = true))]
        rw [ih a (dictInsert N f (sys.getmtime f))
          (fun q hq hvq => hsync q (List.mem_cons_of_mem f hq) hvq)]
        simp [List.filter_cons, hv, stageFold]
      · have hstep := ifc_invisible cfg sys ign f ⟨T, N, fps, fp⟩ (by simpa using hv)
        simp at hstep
        simp only [globStep, hstep]
        rw [if_neg (by simp : ¬(false = true))]
        rw [ih a N (fun q hq hvq => hsync q (List.mem_cons_of_mem f hq) hvq)]
        simp [List.filter_cons, hv]

theorem scan_synced (cfg : Config) (sys : Sys) (ign : Option (String → Bool))
    (p : String) (T N : List (String × Int)) (fps : List String) (fp : Option String)
    (hsync : ∀ q ∈ stagedPaths cfg sys ign p, dictLookup T q = some (sys.getmtime q)) :
    (scan_target cfg sys ign p ⟨T, N, fps, fp⟩).1.truthy = false ∧
    (scan_target cfg sys ign p ⟨T, N, fps, fp⟩).2 =
      ⟨T, stageFold sys N (stagedPaths cfg sys ign p), fps, fp⟩ := by
  simp only [scan_target]
  split_ifs with h1 h2
  · by_cases hv : visiblePath cfg sys ign p
    · have hp : p ∈ stagedPaths cfg sys ign p := by
        simp [stagedPaths, visitList, h1, List.filter_cons, hv]
      have hstep := ifc_synced cfg sys ign p ⟨T, N, fps, fp⟩ hv (hsync p hp)
      simp at hstep
      rw [hstep]
      simp [Changed.truthy, stagedPaths, visitList, h1, List.filter_cons, hv, stageFold]
    · have hstep := ifc_invisible cfg sys ign p ⟨T, N, fps, fp⟩ (by simpa using hv)
      rw [hstep]
      simp [Changed.truthy, stagedPaths, visitList, h1, List.filter_cons, hv, stageFold]
  · have hs2 : ∀ q ∈ walkDir cfg.ignored_dirs p (sys.listing p),
        visiblePath cfg sys ign q = true → dictLookup T q = some (sys.getmtime q) := by
      intro q hq hvq
      exact hsync q (by simp [stagedPaths, visitList, h1, h2, List.mem_filter, hq, hvq])
    simp only [is_folder_changed]
    rw [folder_fold_synced cfg sys ign _ false T N fps fp hs2]
    constructor
    · simp [Changed.truthy]
    · simp [stagedPaths, visitList, h1, h2]
  · simp only [get_changed_glob_files]
    cases hg : sys.glob p with
    | error e =>
        constructor
        · simp [Changed.truthy]
        · simp [stagedPaths, visitList, h1, h2, hg, stageFold]
    | ok files =>
        have hs2 : ∀ q ∈ files, visiblePath cfg sys ign q = true →
            dictLookup T q = some (sys.getmtime q) := by
          intro q hq hvq
          exact hsync q (by simp [stagedPaths, visitList, h1, h2, hg, List.mem_filter, hq, hvq])
        have hfold := glob_fold_synced cfg sys ign files [] T N fps fp hs2
        simp only [hfold]
        constructor
        · simp [Changed.truthy]
        · simp [stagedPaths, visitList, h1, h2, hg]

/-! ### Staged tables: lookups, membership, key uniqueness -/

theorem dictMem_insert_iff (d : List (String × Int)) (a : String) (v : Int) (k : String) :
    dictMem (dictInsert d a v) k = true ↔ dictMem d k = true ∨ k = a := by
  rw [dictMem_iff, dictKeys_insert]
  by_cases hm : dictMem d a
  · rw [if_pos hm]
    constructor
    · intro h
      exact Or.inl ((dictMem_iff d k).mpr h)
    · rintro (h | rfl)
      · exact (dictMem_iff d k).mp h
      · exact (dictMem_iff d k).mp hm
  · rw [if_neg hm, List.mem_append, List.mem_singleton]
    constructor
    · rintro (h | h)
      · exact Or.inl ((dictMem_iff d k).mpr h)
      · exact Or.inr h
    · rintro (h | h)
      · exact Or.inl ((dictMem_iff d k).mp h)
      · exact Or.inr h

theorem stageFold_cons (sys : Sys) (p : String) (ps : List String)
    (N : List (String × Int)) :
    stageFold sys N (p :: ps) = stageFold sys (dictInsert N p (sys.getmtime p)) ps := rfl

theorem stageFold_lookup (sys : Sys) (ps : List String) (N : List (String × Int))
    (q : String) (h : q ∈ ps ∨ dictLookup N q = some (sys.getmtime q)) :
    dictLookup (stageFold sys N ps) q = some (sys.getmtime q) := by
  induction ps generalizing N with
  | nil =>
      rcases h with h | h
      · cases h
      · exact h
  | cons p ps ih =>
      rw [stageFold_cons]
      apply ih
      rcases h with h | h
      · rcases List.mem_cons.mp h with rfl | h2
        · right
          rw [dictLookup_insert, if_pos rfl]
        · left
          exact h2
      · right
        rw [dictLookup_insert]
        by_cases hq : q = p
        · rw [if_pos hq, hq]
        · rw [if_neg hq]
          exact h

theorem stageFold_mem (sys : Sys) (ps : List String) (N : List (String × Int))
    (q : String) :
    dictMem (stageFold sys N ps) q = true ↔ q ∈ ps ∨ dictMem N q = true := by
  induction ps generalizing N with
  | nil => simp [stageFold]
  | cons p ps ih =>
      rw [stageFold_cons, ih]
      constructor
      · rintro (h | h)
        · exact Or.inl (List.mem_cons_of_mem p h)
        · rcases (dictMem_insert_iff N p (sys.getmtime p) q).mp h with h2 | rfl
          · exact Or.inr h2
          · exact Or.inl (List.mem_cons_self q ps)
      · rintro (h | h)
        · rcases List.mem_cons.mp h with rfl | h2
          · exact Or.inr ((dictMem_insert_iff N q (sys.getmtime q) q).mpr (Or.inr rfl))
          · exact Or.inl h2
        · exact Or.inr ((dictMem_insert_iff N p (sys.getmtime p) q).mpr (Or.inl h))

theorem stageFold_nodup (sys : Sys) (ps : List String) (N : List (String × Int))
    (h : (dictKeys N).Nodup) : (dictKeys (stageFold sys N ps)).Nodup := by
  induction ps generalizing N with
  | nil => exact h
  | cons p ps ih =>
      rw [stageFold_cons]
      exact ih (dictInsert N p (sys.getmtime p)) (dictKeys_insert_nodup h)

/-! ### The persisted table after one diff -/

theorem is_changed_parts (cfg : Config) (sys : Sys) (ign : Option (String → Bool))
    (t : Target) (m : List (String × Int)) (fps : List String) (fp : Option String) :
    (is_changed cfg sys ign t m fps fp).2.new_mtimes =
      stageFold sys [] (stagedPaths cfg sys ign t.path) ∧
    ∃ X, (is_changed cfg sys ign t m fps fp).2.task_mtimes =
      dictUpdate X (stageFold sys [] (stagedPaths cfg sys ign t.path)) := by
  simp only [is_changed]
  rcases hs : scan_target cfg sys ign t.path ⟨m, [], fps, fp⟩ with ⟨c, st1⟩
  have hnew : st1.new_mtimes = stageFold sys [] (stagedPaths cfg sys ign t.path) := by
    have hx := scan_staged cfg sys ign t.path m [] fps fp
    rw [hs] at hx
    exact hx
  cases hc : c.truthy
  · simp only [hc, Bool.false_eq_true, if_false, is_file_removed_eq]
    split_ifs with hrem
    · exact ⟨by simpa using hnew, st1.task_mtimes, by simp [hnew]⟩
    · exact ⟨by simpa using hnew,
        st1.task_mtimes.filter (fun kv => dictMem st1.new_mtimes kv.1), by simp [hnew]⟩
  · simp only [hc, if_true]
    exact ⟨by simpa using hnew, st1.task_mtimes, by simp [hnew]⟩

theorem is_changed_synced_lookup (cfg : Config) (sys : Sys) (ign : Option (String → Bool))
    (t : Target) (m : List (String × Int)) (fps : List String) (fp : Option String)
    (q : String) (hq : q ∈ stagedPaths cfg sys ign t.path) :
    dictLookup ((is_changed cfg sys ign t m fps fp).2.task_mtimes) q =
      some (sys.getmtime q) := by
  obtain ⟨-, X, hX⟩ := is_changed_parts cfg sys ign t m fps fp
  rw [hX]
  rw [dictLookup_update_of_mem X
    (stageFold_nodup sys (stagedPaths cfg sys ign t.path) [] (by simp [dictKeys]))
    ((stageFold_mem sys (stagedPaths cfg sys ign t.path) [] q).mpr (Or.inl hq))]
  exact stageFold_lookup sys (stagedPaths cfg sys ign t.path) [] q (Or.inl hq)

/-! ### A second diff over an unchanged filesystem -/

theorem taskDiff_second (cfg : Config) (sys : Sys) (t : Target × Task)
    (hsync : ∀ q ∈ stagedPaths cfg sys t.2.ignore t.1.path,
      dictLookup t.2.mtimes q = some (sys.getmtime q)) :
    (taskDiff cfg sys t).2.filepaths = [] ∧
    ((∀ k ∈ dictKeys t.2.mtimes, k ∈ stagedPaths cfg sys t.2.ignore t.1.path) →
      (taskDiff cfg sys t).1.truthy = false) := by
  simp only [taskDiff, is_changed]
  obtain ⟨hc, hst⟩ :=
    scan_synced cfg sys t.2.ignore t.1.path t.2.mtimes [] [] Option.none hsync
  rcases hsres : scan_target cfg sys t.2.ignore t.1.path
      ⟨t.2.mtimes, [], [], Option.none⟩ with ⟨c, st1⟩
  rw [hsres] at hc hst
  simp only at hc hst
  rw [hst]
  simp only [hc, Bool.false_eq_true, if_false, is_file_removed_eq]
  split_ifs with hrem
  · constructor
    · simp
    · intro _
      simp [Changed.truthy]
  · constructor
    · simp
    · intro hall
      exfalso
      rcases hfe : (dictKeys t.2.mtimes).filter
          (fun k => !dictMem (stageFold sys [] (stagedPaths cfg sys t.2.ignore t.1.path)) k) with
        _ | ⟨k, rest⟩
      · rw [hfe] at hrem
        exact hrem rfl
      · have hk : k ∈ (dictKeys t.2.mtimes).filter
            (fun kk => !dictMem (stageFold sys [] (stagedPaths cfg sys t.2.ignore t.1.path)) kk) := by
          rw [hfe]
          exact List.mem_cons_self k rest
        obtain ⟨hkm, hknot⟩ := List.mem_filter.mp hk
        have hks := hall k hkm
        have : dictMem (stageFold sys [] (stagedPaths cfg sys t.2.ignore t.1.path)) k = true :=
          (stageFold_mem sys (stagedPaths cfg sys t.2.ignore t.1.path) [] k).mpr (Or.inl hks)
        rw [this] at hknot
        simp at hknot

/-! ### Maximum of a delay set -/

theorem le_foldl_max (l : List Rat) (a : Rat) : a ≤ l.foldl max a := by
  induction l generalizing a with
  | nil => exact le_refl a
  | cons b l ih => exact le_trans (le_max_left a b) (ih (max a b))

theorem mem_le_foldl_max (l : List Rat) (a x : Rat) (h : x ∈ l) : x ≤ l.foldl max a := by
  induction l generalizing a with
  | nil => cases h
  | cons b l ih =>
      rcases List.mem_cons.mp h with rfl | h2
      · rw [List.foldl_cons]
        exact le_trans (le_max_right a x) (le_foldl_max l (max a x))
      · rw [List.foldl_cons]
        exact ih (max a b) h2

theorem foldl_max_mem (l : List Rat) (a : Rat) : l.foldl max a ∈ a :: l := by
  induction l generalizing a with
  | nil => exact List.mem_singleton.mpr rfl
  | cons b l ih =>
      rw [List.foldl_cons]
      rcases List.mem_cons.mp (ih (max a b)) with h | h
      · rcases max_choice a b with hm | hm <;> rw [h, hm]
        · exact List.mem_cons_self a (b :: l)
        · exact List.mem_cons_of_mem a (List.mem_cons_self b l)
      · exact List.mem_cons_of_mem a (List.mem_cons_of_mem b h)

theorem listMaxOf_mem {l : List Rat} {m : Rat} (h : listMaxOf l = some m) : m ∈ l := by
  cases l with
  | nil => simp [listMaxOf] at h
  | cons x xs =>
      simp only [listMaxOf, Option.some.injEq] at h
      rw [← h]
      exact foldl_max_mem xs x

theorem listMaxOf_ge {l : List Rat} {m : Rat} (h : listMaxOf l = some m) :
    ∀ x ∈ l, x ≤ m := by
  cases l with
  | nil =>
      intro x hx
      cases hx
  | cons y ys =>
      simp only [listMaxOf, Option.some.injEq] at h
      intro x hx
      rw [← h]
      rcases List.mem_cons.mp hx with rfl | h2
      · exact le_foldl_max ys x
      · exact mem_le_foldl_max ys y x h2

theorem listMaxOf_none {l : List Rat} (h : listMaxOf l = Option.none) : l = [] := by
  cases l with
  | nil => rfl
  | cons x xs => simp [listMaxOf] at h

theorem listMaxOf_congr {l1 l2 : List Rat} (h : ∀ x, x ∈ l1 ↔ x ∈ l2) :
    listMaxOf l1 = listMaxOf l2 := by
  cases hl1 : listMaxOf l1 with
  | none =>
      cases hl2 : listMaxOf l2 with
      | none => rfl
      | some m2 =>
          have hm2 : m2 ∈ l1 := (h m2).mpr (listMaxOf_mem hl2)
          rw [listMaxOf_none hl1] at hm2
          cases hm2
  | some m1 =>
      cases hl2 : listMaxOf l2 with
      | none =>
          have hm1 : m1 ∈ l2 := (h m1).mp (listMaxOf_mem hl1)
          rw [listMaxOf_none hl2] at hm1
          cases hm1
      | some m2 =>
          have h12 : m1 ≤ m2 := listMaxOf_ge hl2 m1 ((h m1).mp (listMaxOf_mem hl1))
          have h21 : m2 ≤ m1 := listMaxOf_ge hl1 m2 ((h m2).mpr (listMaxOf_mem hl2))
          rw [le_antisymm h12 h21]

theorem mem_setAdd {l : List Rat} {x a : Rat} : a ∈ setAdd l x ↔ a ∈ l ∨ a = x := by
  unfold setAdd
  split_ifs with hx
  · constructor
    · exact Or.inl
    · rintro (h | rfl)
      · exact h
      · exact hx
  · rw [List.mem_append, List.mem_singleton]

theorem mem_delayFold (cfg : Config) (sys : Sys) (ts : List (Target × Task))
    (ds : List Rat) (a : Rat) :
    (a ∈ ts.foldl (fun ds t =>
        match delayContrib cfg sys t with
        | some x => setAdd ds x
        | Option.none => ds) ds) ↔
      a ∈ ds ∨ a ∈ ts.filterMap (delayContrib cfg sys) := by
  induction ts generalizing ds with
  | nil => simp
  | cons t ts ih =>
      rw [List.foldl_cons, List.filterMap_cons]
      cases hd : delayContrib cfg sys t with
      | none => simpa using ih ds
      | some x =>
          rw [ih (setAdd ds x)]
          rw [mem_setAdd]
          simp only [List.mem_cons]
          tauto

theorem delayFold_none (cfg : Config) (sys : Sys) (ts : List (Target × Task))
    (ds : List Rat) (h : ∀ t ∈ ts, delayContrib cfg sys t = Option.none) :
    ts.foldl (fun ds t =>
      match delayContrib cfg sys t with
      | some x => setAdd ds x
      | Option.none => ds) ds = ds := by
  induction ts generalizing ds with
  | nil => rfl
  | cons t ts ih =>
      rw [List.foldl_cons, h t (List.mem_cons_self t ts)]
      exact ih ds (fun t2 ht2 => h t2 (List.mem_cons_of_mem t ht2))

theorem flatMap_eq_nil_all {α β : Type} (l : List α) (f : α → List β)
    (h : ∀ a ∈ l, f a = []) : l.flatMap f = [] := by
  induction l with
  | nil => rfl
  | cons a l ih =>
      rw [List.flatMap_cons, h a (List.mem_cons_self a l),
        ih (fun b hb => h b (List.mem_cons_of_mem a hb))]
      rfl

/-! ### Fixtures for C1, C2 and C4 -/

/-- The scan dispatch never touches the per-task mtime table. -/
theorem scan_task_const (cfg : Config) (sys : Sys) (ign : Option (String → Bool))
    (p : String) (st : WState) :
    (scan_target cfg sys ign p st).2.task_mtimes = st.task_mtimes := by
  rcases st with ⟨T, N, F, P⟩
  rw [scan_shift]

/-! ### C1 -/

/-- C1 counterexample: a glob task whose expansion still contains a modified
file `A` while `B` was removed from the filesystem before this poll.  The scan
reports a change, so `is_file_removed` is never consulted: after the diff the
persisted table still holds the stale entry for `B` even though `B` was not
re-staged (it is no longer a file and is absent from the staged table). -/
theorem stale_entry_survives_concurrent_change :
    (is_changed cfgNull sysAB Option.none (Target.str "g")
        [("A", 1), ("B", 1)] [] Option.none).1 = Changed.list ["A"] ∧
    (is_changed cfgNull sysAB Option.none (Target.str "g")
        [("A", 1), ("B", 1)] [] Option.none).2.task_mtimes = [("A", 2), ("B", 1)] ∧
    sysAB.isfile "B" = false ∧
    dictMem (is_changed cfgNull sysAB Option.none (Target.str "g")
        [("A", 1), ("B", 1)] [] Option.none).2.new_mtimes "B" = false := by
  decide

/-- C1 (amended): when the scan phase of a diff reports no change, the
persisted table contains no entry for a path that was not re-staged during the
diff, and if moreover some previous key was not re-staged, the diff reports
the task as changed and the removed keys are dropped; when the scan phase did
report a change, a stale entry can survive the poll, as the counterexample
shows. -/
theorem stale_entries_after_diff (cfg : Config) (sys : Sys)
    (ign : Option (String → Bool)) (t : Target) (m : List (String × Int))
    (fps : List String) (fp : Option String)
    (hscan : (scan_target cfg sys ign t.path ⟨m, [], fps, fp⟩).1.truthy = false) :
    (∀ k ∈ dictKeys ((is_changed cfg sys ign t m fps fp).2.task_mtimes),
       dictMem (scan_target cfg sys ign t.path ⟨m, [], fps, fp⟩).2.new_mtimes k = true) ∧
    ((∃ k ∈ dictKeys m,
        dictMem (scan_target cfg sys ign t.path ⟨m, [], fps, fp⟩).2.new_mtimes k = false) →
       (is_changed cfg sys ign t m fps fp).1 = Changed.bool true) := by
  rcases hs : scan_target cfg sys ign t.path ⟨m, [], fps, fp⟩ with ⟨c, st1⟩
  have ht1 : st1.task_mtimes = m := by
    have hx := scan_task_const cfg sys ign t.path ⟨m, [], fps, fp⟩
    rw [hs] at hx
    exact hx
  rw [hs] at hscan
  simp only at hscan
  simp only [is_changed, hs, hscan, Bool.false_eq_true, if_false, is_file_removed_eq]
  rw [ht1]
  split_ifs with hrem
  · have hall : ∀ k ∈ dictKeys m, dictMem st1.new_mtimes k = true := by
      intro k hk
      have hf := List.isEmpty_iff.mp hrem
      by_cases hmem : dictMem st1.new_mtimes k
      · exact hmem
      · exfalso
        have hin : k ∈ (dictKeys m).filter (fun k => !dictMem st1.new_mtimes k) :=
          List.mem_filter.mpr ⟨hk, by simp [hmem]⟩
        rw [hf] at hin
        cases hin
    constructor
    · intro k hk
      simp only at hk
      rw [ht1] at hk
      rcases dictKeys_update_sub hk with h1 | h1
      · exact hall k h1
      · exact (dictMem_iff st1.new_mtimes k).mpr h1
    · rintro ⟨k, hk, hnm⟩
      rw [hall k hk] at hnm
      cases hnm
  · constructor
    · intro k hk
      simp only at hk
      rcases dictKeys_update_sub hk with h1 | h1
      · simp only [dictKeys, List.mem_map] at h1
        obtain ⟨kv, hkv, rfl⟩ := h1
        exact (List.mem_filter.mp hkv).2
      · exact (dictMem_iff st1.new_mtimes k).mpr h1
    · intro _
      rfl

theorem stale_entries_after_diff_witness :
    (scan_target cfgNull sysNull Option.none "f"
        ⟨[("B", 1)], [], [], Option.none⟩).1.truthy = false ∧
    (is_changed cfgNull sysNull Option.none (Target.str "f")
        [("B", 1)] [] Option.none).1 = Changed.bool true :=
  ⟨by decide,
   (stale_entries_after_diff cfgNull sysNull Option.none (Target.str "f")
      [("B", 1)] [] Option.none (by decide)).2 ⟨"B", by decide, by decide⟩⟩

/-! ### C2 -/

/-- C2 counterexample: one changed task with the finite numeric delay `2`
(a Python int).  The claim says the returned delay is the maximum of the
finite numeric delays of changed tasks, i.e. `2`; the code only aggregates
floats (`isinstance(delay, float)`), so the poll returns no delay at all. -/
theorem int_delay_ignored_by_examine :
    wInt.tasks.map (fun t => t.2.delay) = [Delay.int 2] ∧
    (examine sysTwo wInt).1 = (["f"], Option.none) ∧
    (examine sysTwo wInt).1.2 ≠ some (2 : Rat) := by
  refine ⟨by decide, by decide, ?_⟩
  intro h
  rw [show (examine sysTwo wInt).1.2 = Option.none from by decide] at h
  cases h

/-- C2 (amended): with no pending change queued, the delay `examine` returns
is the maximum over all tasks that changed in this poll of each such task's
delay restricted to truthy floats (`delayContrib`): a task whose delay is an
int, the string sentinel `'forever'`, `None`, or the float `0.0` never
contributes even when it changed, and the result is `None` when no changed
task contributes.  With two changed file tasks of float delays `1.0` and
`2.5`, `examine` returns delay `2.5`. -/
theorem examine_delay_aggregation (sys : Sys) (w : Watcher) (h : w.changes = []) :
    (examine sys w).1.2 = listMaxOf (w.tasks.filterMap (delayContrib w.config sys)) ∧
    (examine sysTwo wTwo).1 = (["f", "g"], some (mkRat 5 2)) := by
  constructor
  · rw [(examine_parts sys w h).2.1]
    apply listMaxOf_congr
    intro x
    rw [mem_delayFold]
    simp
  · decide

theorem examine_delay_aggregation_witness :
    (examine sysTwo wTwo).1.2 =
      listMaxOf (wTwo.tasks.filterMap (delayContrib wTwo.config sysTwo)) :=
  (examine_delay_aggregation sysTwo wTwo rfl).1

/-! ### C4 -/

/-- C4 counterexample: a glob task over a filesystem in which `A` was modified
and `B` removed before the first poll.  The first `examine` reports `A` but
keeps the stale entry for `B`; the second `examine`, with no filesystem change
in between, returns an empty changed-path list but a non-`None` delay (the
removal of `B` is only detected now), falsifying the idempotence claim. -/
theorem second_poll_delay_after_stale_removal :
    wC4.changes = [] ∧
    (examine sysAB wC4).1 = (["A"], some 1) ∧
    (examine sysAB ((examine sysAB wC4).2.1)).1 = ([], some 1) := by
  refine ⟨rfl, by decide, by decide⟩

/-- C4 (amended): calling `examine` twice with no filesystem change between
the calls and no pending change queued always returns an empty changed-path
list on the second call; the returned delay is additionally `None` provided
no task's table after the first call retains an entry for a path the scan no
longer stages (no stale removal carried over, which can occur only when a
removal coincided with an addition or modification before the first call, as
the counterexample shows). -/
theorem examine_idempotent_second_poll (sys : Sys) (w : Watcher) (h : w.changes = []) :
    ((examine sys ((examine sys w).2.1)).1).1 = [] ∧
    ((∀ t1 ∈ ((examine sys w).2.1).tasks, ∀ k ∈ dictKeys t1.2.mtimes,
        k ∈ stagedPaths w.config sys t1.2.ignore t1.1.path) →
      ((examine sys ((examine sys w).2.1)).1).2 = Option.none) := by
  obtain ⟨hfps1, hdel1, htasks, hev1, hch, hcf, hstart⟩ := examine_parts sys w h
  have hsync : ∀ t1 ∈ ((examine sys w).2.1).tasks,
      ∀ q ∈ stagedPaths w.config sys t1.2.ignore t1.1.path,
      dictLookup t1.2.mtimes q = some (sys.getmtime q) := by
    intro t1 ht1 q hq
    rw [htasks] at ht1
    obtain ⟨t, ht, rfl⟩ := List.mem_map.mp ht1
    simpa [taskDiff] using
      is_changed_synced_lookup w.config sys t.2.ignore t.1 t.2.mtimes [] Option.none q hq
  obtain ⟨hfps2, hdel2, -⟩ := examine_parts sys ((examine sys w).2.1) hch
  constructor
  · rw [hfps2]
    apply flatMap_eq_nil_all
    intro t1 ht1
    rw [hcf]
    exact (taskDiff_second w.config sys t1 (hsync t1 ht1)).1
  · intro hall
    rw [hdel2]
    rw [delayFold_none ((examine sys w).2.1).config sys ((examine sys w).2.1).tasks []
      (fun t1 ht1 => by
        rw [hcf]
        unfold delayContrib
        rw [(taskDiff_second w.config sys t1 (hsync t1 ht1)).2 (hall t1 ht1)]
        rfl)]
    rfl

theorem examine_idempotent_second_poll_witness :
    (examine sysTwo ((examine sysTwo wTwo).2.1)).1 = ([], Option.none) := by
  have h := examine_idempotent_second_poll sysTwo wTwo rfl
  have h2 := h.2 (by decide)
  rw [show (examine sysTwo ((examine sysTwo wTwo).2.1)).1 =
    ((examine sysTwo ((examine sysTwo wTwo).2.1)).1.1,
     (examine sysTwo ((examine sysTwo wTwo).2.1)).1.2) from rfl, h.1, h2]

end LiveReload
